import Mathlib

/-!
Verification of the concurrent run core of `otree` (src/bin/otree.js).

Strings are modelled as `List Char`.  The translation keeps the source's
names and structure: `extractUrls`, `isErrorLine`, `shouldShowLine`,
`runCommand`'s per-chunk callback and summary, and the route handling.
-/

namespace Otree

/-- ASCII whitespace class used by line trimming (the characters
`String.prototype.trim` removes, restricted to ASCII). -/
def isWs (c : Char) : Bool :=
  c = ' ' || c = '\t' || c = '\n' || c = '\r' || c = '\x0B' || c = '\x0C'

/-- Lowercasing of one character; models JavaScript `toLowerCase` on the
ASCII range, which covers every character the classifier vocabulary and the
case-insensitive regex need. -/
def lowerChar (c : Char) : Char :=
  if c = 'A' then 'a' else if c = 'B' then 'b' else if c = 'C' then 'c' else
  if c = 'D' then 'd' else if c = 'E' then 'e' else if c = 'F' then 'f' else
  if c = 'G' then 'g' else if c = 'H' then 'h' else if c = 'I' then 'i' else
  if c = 'J' then 'j' else if c = 'K' then 'k' else if c = 'L' then 'l' else
  if c = 'M' then 'm' else if c = 'N' then 'n' else if c = 'O' then 'o' else
  if c = 'P' then 'p' else if c = 'Q' then 'q' else if c = 'R' then 'r' else
  if c = 'S' then 's' else if c = 'T' then 't' else if c = 'U' then 'u' else
  if c = 'V' then 'v' else if c = 'W' then 'w' else if c = 'X' then 'x' else
  if c = 'Y' then 'y' else if c = 'Z' then 'z' else c

/-- `text.toLowerCase()` on a line. -/
def lowerStr (s : List Char) : List Char := s.map lowerChar

/-- The character class `\d` of the URL regex. -/
def isDigit (c : Char) : Bool :=
  c = '0' || c = '1' || c = '2' || c = '3' || c = '4' ||
  c = '5' || c = '6' || c = '7' || c = '8' || c = '9'

/-- `line.trim()`: drop whitespace from both ends. -/
def trim (s : List Char) : List Char :=
  ((s.dropWhile isWs).reverse.dropWhile isWs).reverse

/-- `hay.includes(needle)` on strings. -/
def includes : List Char → List Char → Bool
  | [], needle => needle.isEmpty
  | c :: t, needle => needle.isPrefixOf (c :: t) || includes t needle

/-- `chunk.split("\n")`. -/
def splitLines (s : List Char) : List (List Char) := s.splitOn '\n'

/-- Case-insensitive literal matcher (`pat` is given lowercased).  On success
it returns the consumed characters in their original case together with the
remaining input, mirroring how the regex engine records match text. -/
def matchLitCI : List Char → List Char → Option (List Char × List Char)
  | [], s => some ([], s)
  | _ :: _, [] => none
  | p :: ps, c :: cs =>
    if lowerChar c = p then
      match matchLitCI ps cs with
      | some (m, r) => some (c :: m, r)
      | none => none
    else none

/-- `\d+`: a greedy, non-empty run of digits. -/
def matchPort (s : List Char) : Option (List Char × List Char) :=
  if (s.takeWhile isDigit).isEmpty then none
  else some (s.takeWhile isDigit, s.dropWhile isDigit)

/-- A lowercased literal followed by `\d+`. -/
def matchLitPort (lit : List Char) (s : List Char) : Option (List Char × List Char) :=
  match matchLitCI lit s with
  | none => none
  | some (m, r) =>
    match matchPort r with
    | none => none
    | some (d, r2) => some (m ++ d, r2)

/-- First regex alternative `https?:\/\/localhost:\d+`.  The greedy optional
`s?` needs no backtracking: when the `s` branch is taken the next input
character is `s`, on which the literal `:` of the no-`s` branch could never
match anyway. -/
def matchAlt1 (s : List Char) : Option (List Char × List Char) :=
  match matchLitCI (String.toList "http") s with
  | none => none
  | some (m0, r0) =>
    match matchLitCI (String.toList "s") r0 with
    | some (ms, rs) =>
      match matchLitPort (String.toList "://localhost:") rs with
      | none => none
      | some (m, r) => some (m0 ++ ms ++ m, r)
    | none =>
      match matchLitPort (String.toList "://localhost:") r0 with
      | none => none
      | some (m, r) => some (m0 ++ m, r)

/-- Second regex alternative `http:\/\/127\.0\.0\.1:\d+`. -/
def matchAlt2 (s : List Char) : Option (List Char × List Char) :=
  matchLitPort (String.toList "http://127.0.0.1:") s

/-- Third regex alternative `localhost:\d+`. -/
def matchAlt3 (s : List Char) : Option (List Char × List Char) :=
  matchLitPort (String.toList "localhost:") s

/-- One attempt of the regex at the current position: the alternatives are
tried in the order they appear in the pattern. -/
def matchUrlAt (s : List Char) : Option (List Char × List Char) :=
  match matchAlt1 s with
  | some mr => some mr
  | none =>
    match matchAlt2 s with
    | some mr => some mr
    | none => matchAlt3 s

/-- The global (`g` flag) scan of `text.match(urlPattern)`: at each position
try the pattern; after a match resume right after it, otherwise advance one
character.  `skip` counts characters still inside the previous match; it only
serves to make the recursion structural on the input list. -/
def scanGo : Nat → List Char → List (List Char)
  | _, [] => []
  | 0, c :: cs =>
    match matchUrlAt (c :: cs) with
    | some (m, _) => m :: scanGo (m.length - 1) cs
    | none => scanGo 0 cs
  | n + 1, _ :: cs => scanGo n cs

/-- All raw regex matches of a line, in scan order. -/
def scanUrls (s : List Char) : List (List Char) := scanGo 0 s

/-- Insertion-order deduplication: the semantics of `[...new Set(l)]`. -/
def dedupKeepFirst (l : List (List Char)) : List (List Char) :=
  l.foldl (fun acc x => if x ∈ acc then acc else acc ++ [x]) []

/-- `extractUrls` (src/bin/otree.js lines 65-70): global case-insensitive
regex scan, then `[...new Set(matches)]`. -/
def extractUrls (text : List Char) : List (List Char) :=
  dedupKeepFirst (scanUrls text)

/-- The fixed error/warning vocabulary of `isErrorLine`. -/
def errorKeywords : List (List Char) :=
  [String.toList "error", String.toList "failed", String.toList "failure",
   String.toList "exception", String.toList "fatal", String.toList "cannot",
   String.toList "unable to", String.toList "not found", String.toList "enoent",
   String.toList "eacces", String.toList "warn", String.toList "warning"]

/-- `isErrorLine` (lines 72-89): case-insensitive substring match against the
fixed vocabulary. -/
def isErrorLine (text : List Char) : Bool :=
  errorKeywords.any (fun keyword => includes (lowerStr text) keyword)

/-- The ready/listening vocabulary of `shouldShowLine`. -/
def importantKeywords : List (List Char) :=
  [String.toList "ready", String.toList "listening", String.toList "started",
   String.toList "running on", String.toList "available on",
   String.toList "local:", String.toList "server running"]

/-- `shouldShowLine` (lines 91-114): URL present, or error/warning, or one of
the ready/listening keywords. -/
def shouldShowLine (line : List Char) : Bool :=
  if 0 < (extractUrls line).length then true
  else if isErrorLine line then true
  else List.any importantKeywords (fun keyword => includes (lowerStr line) keyword)

/-- Route normalization as written three times in the source:
`route.startsWith("/") ? route : "/" + route`. -/
def normalizedRoute (route : List Char) : List Char :=
  if (['/'] : List Char).isPrefixOf route then route else '/' :: route

/-- A route-appended URL variant: `url + normalizedRoute`. -/
def routeUrl (url route : List Char) : List Char := url ++ normalizedRoute route

/-- One worktree as parsed from `git worktree list --porcelain`. -/
structure Worktree where
  path : List Char
  branch : List Char
  commit : List Char
  deriving DecidableEq

/-- How one child process ends: an exit code, or a spawn error. -/
inductive ProcExit where
  | exited (code : Nat)
  | spawnError (message : List Char)
  deriving DecidableEq

/-- The externally supplied behavior of one child process: its output chunks
in arrival order (stdout and stderr merged) and how it ends. -/
structure ProcBehavior where
  chunks : List (List Char)
  exit : ProcExit
  deriving DecidableEq

/-- Settled state of one runner promise, as `Promise.allSettled` reports it. -/
inductive RunOutcome where
  | fulfilled
  | rejected (reason : List Char)
  deriving DecidableEq

/-- `runCommandInWorktree` (lines 116-145): resolve on exit code 0, reject
with `Command exited with code N` on a non-zero code, reject with the spawn
error message when the process could not start. -/
def outcomeOfExit : ProcExit → RunOutcome
  | ProcExit.exited 0 => RunOutcome.fulfilled
  | ProcExit.exited code =>
      RunOutcome.rejected (String.toList ("Command exited with code " ++ toString code))
  | ProcExit.spawnError message => RunOutcome.rejected message

/-- Per-worktree mutable accumulator (`processInfos[index]`, lines 507-511). -/
structure ProcessInfo where
  worktree : Worktree
  urls : List (List Char)
  output : List (List Char)
  deriving DecidableEq

/-- Initial accumulator: `{ worktree: wt, urls: [], output: [] }`. -/
def initInfo (wt : Worktree) : ProcessInfo :=
  { worktree := wt, urls := [], output := [] }

/-- Accumulation step of the output callback (lines 517-521): the raw chunk
is appended to `output` and the chunk's extracted URLs are pushed onto
`urls`; note there is no deduplication across chunks here. -/
def applyChunk (info : ProcessInfo) (chunk : List Char) : ProcessInfo :=
  { info with
    output := info.output ++ [chunk],
    urls := info.urls ++ extractUrls chunk }

/-- One selected worktree paired with the behavior its spawned process will
exhibit (the model's stand-in for the operating system). -/
structure WorktreeRun where
  worktree : Worktree
  behavior : ProcBehavior
  deriving DecidableEq

/-- The accumulator of one worktree after its whole output was processed. -/
def runInfo (r : WorktreeRun) : ProcessInfo :=
  r.behavior.chunks.foldl applyChunk (initInfo r.worktree)

/-- One settled runner: its accumulator and its outcome.  The pair depends
only on this worktree's own behavior. -/
def runOne (r : WorktreeRun) : ProcessInfo × RunOutcome :=
  (runInfo r, outcomeOfExit r.behavior.exit)

/-- The parallel run phase with its all-settled join (line 567): every
selected worktree is launched and every runner settles independently; the
results are indexed in selection order. -/
def execute (runs : List WorktreeRun) : List (ProcessInfo × RunOutcome) :=
  runs.map runOne

/-- The `processInfos` array in selection order. -/
def processInfos (runs : List WorktreeRun) : List ProcessInfo :=
  runs.map runInfo

/-- Result of invoking the run command after worktree selection. -/
inductive RunCommandResult where
  | emptySelection
  | completed (results : List (ProcessInfo × RunOutcome))
  deriving DecidableEq

/-- Top of `runCommand` after selection (lines 348-351): an empty selection
prints `No worktrees selected.` and returns before anything is launched;
otherwise all runners execute. -/
def runCommandModel (runs : List WorktreeRun) : RunCommandResult :=
  if runs.isEmpty then RunCommandResult.emptySelection
  else RunCommandResult.completed (execute runs)

/-- Per-worktree URL block of the summary (line 583):
`[...new Set(info.urls)]`. -/
def summaryWorktreeUrls (info : ProcessInfo) : List (List Char) :=
  dedupKeepFirst info.urls

/-- Global URL section of the summary (lines 605-606): flatten the
accumulated URL lists in selection order, then `[...new Set(allUrls)]`. -/
def summaryGlobalUrls (runs : List WorktreeRun) : List (List Char) :=
  dedupKeepFirst ((processInfos runs).flatMap (fun info => info.urls))

/-- One console line the multiplexer emits, with its visual style and the
worktree tag it is prefixed with. -/
inductive Rendered where
  | plain (tag line : List Char)
  | errorStyled (tag line : List Char)
  | urlStyled (tag line : List Char)
  | routeTagged (tag text : List Char)
  deriving DecidableEq

/-- Rendering of one split line of a chunk (lines 523-562): skip blank lines;
in verbose mode print everything; otherwise print only important lines,
styling error lines red, URL lines green, and after a URL line emit one
route-tagged line per URL when a route was supplied (`if (route)` follows
JavaScript truthiness, so a missing or empty route emits nothing). -/
def renderLine (verbose : Bool) (route : Option (List Char)) (tag line : List Char) :
    List Rendered :=
  let trimmedLine := trim line
  if trimmedLine.isEmpty then []
  else if verbose then [Rendered.plain tag line]
  else if shouldShowLine trimmedLine then
    if isErrorLine trimmedLine then [Rendered.errorStyled tag line]
    else if 0 < (extractUrls trimmedLine).length then
      Rendered.urlStyled tag line ::
        (match route with
         | some r =>
             if r.isEmpty then []
             else (extractUrls trimmedLine).map
               (fun url => Rendered.routeTagged tag (url ++ normalizedRoute r))
         | none => [])
    else [Rendered.plain tag line]
  else []

/-- Rendering of one whole chunk: split on newlines, render each line. -/
def renderChunk (verbose : Bool) (route : Option (List Char)) (tag chunk : List Char) :
    List Rendered :=
  (splitLines chunk).flatMap (renderLine verbose route tag)

/-!  Specification-side definitions, written from the spec's words, to be
compared with the translated code above.  -/

/-- Deduplication that keeps the first occurrence, written as the textbook
recursion: keep the head, drop its later duplicates, recurse.  `seen` holds
the values already emitted. -/
def dedupFirstAux (seen : List (List Char)) : List (List Char) → List (List Char)
  | [] => []
  | x :: xs =>
    if x ∈ seen then dedupFirstAux seen xs
    else x :: dedupFirstAux (x :: seen) xs

/-- Spec-side first-seen deduplication. -/
def specDedupFirst (l : List (List Char)) : List (List Char) := dedupFirstAux [] l

/-- The four URL prefixes of the spec, lowercased, each to be followed by one
or more digits. -/
def urlLits : List (List Char) :=
  [String.toList "https://localhost:", String.toList "http://localhost:",
   String.toList "http://127.0.0.1:", String.toList "localhost:"]

/-- `PORT`: one or more digits. -/
def portDigits (d : List Char) : Bool := !d.isEmpty && d.all isDigit

/-- Spec-side shape of one full URL match: case-insensitively one of the four
prefixes followed by one or more digits and nothing else. -/
def specUrlShape (u : List Char) : Bool :=
  urlLits.any (fun lit => lit.isPrefixOf (lowerStr u) && portDigits (u.drop lit.length))

/-- Spec-side `isImportantLine`: `extractUrls` non-empty, or `isErrorLine`,
or the lowercased line contains one of the ready/listening keywords. -/
def isImportantLine (line : List Char) : Bool :=
  !(extractUrls line).isEmpty || isErrorLine line ||
    List.any importantKeywords (fun keyword => includes (lowerStr line) keyword)

/-- Spec-side route normalization: prefix a slash exactly when the route does
not already start with one. -/
def specNormalizedRoute (route : List Char) : List Char :=
  match route with
  | '/' :: _ => route
  | _ => '/' :: route

/-- Endpoint sanity of a keyword: it exists and neither its first nor its
last character is whitespace.  All classifier keywords satisfy this; it is
what makes substring search insensitive to trimming. -/
def goodEnds (kw : List Char) : Bool :=
  match kw.head?, kw.getLast? with
  | some c, some d => !isWs c && !isWs d
  | _, _ => false

/-- A demonstration worktree whose command exits with code 1. -/
def demoRunFail : WorktreeRun :=
  { worktree := { path := [], branch := String.toList "a", commit := [] },
    behavior := { chunks := [], exit := ProcExit.exited 1 } }

/-- A demonstration worktree whose command exits with code 0. -/
def demoRunOk : WorktreeRun :=
  { worktree := { path := [], branch := String.toList "b", commit := [] },
    behavior := { chunks := [], exit := ProcExit.exited 0 } }

/-!  Basic lemmas about characters, substring search and trimming.  -/

theorem bool_ext {a b : Bool} (h : a = true ↔ b = true) : a = b := by
  cases a <;> cases b <;> simp_all

theorem isWs_lowerChar (c : Char) : isWs (lowerChar c) = isWs c := by
  delta lowerChar
  by_cases h0 : c = 'A'
  · subst h0; rfl
  rw [if_neg h0]
  by_cases h1 : c = 'B'
  · subst h1; rfl
  rw [if_neg h1]
  by_cases h2 : c = 'C'
  · subst h2; rfl
  rw [if_neg h2]
  by_cases h3 : c = 'D'
  · subst h3; rfl
  rw [if_neg h3]
  by_cases h4 : c = 'E'
  · subst h4; rfl
  rw [if_neg h4]
  by_cases h5 : c = 'F'
  · subst h5; rfl
  rw [if_neg h5]
  by_cases h6 : c = 'G'
  · subst h6; rfl
  rw [if_neg h6]
  by_cases h7 : c = 'H'
  · subst h7; rfl
  rw [if_neg h7]
  by_cases h8 : c = 'I'
  · subst h8; rfl
  rw [if_neg h8]
  by_cases h9 : c = 'J'
  · subst h9; rfl
  rw [if_neg h9]
  by_cases h10 : c = 'K'
  · subst h10; rfl
  rw [if_neg h10]
  by_cases h11 : c = 'L'
  · subst h11; rfl
  rw [if_neg h11]
  by_cases h12 : c = 'M'
  · subst h12; rfl
  rw [if_neg h12]
  by_cases h13 : c = 'N'
  · subst h13; rfl
  rw [if_neg h13]
  by_cases h14 : c = 'O'
  · subst h14; rfl
  rw [if_neg h14]
  by_cases h15 : c = 'P'
  · subst h15; rfl
  rw [if_neg h15]
  by_cases h16 : c = 'Q'
  · subst h16; rfl
  rw [if_neg h16]
  by_cases h17 : c = 'R'
  · subst h17; rfl
  rw [if_neg h17]
  by_cases h18 : c = 'S'
  · subst h18; rfl
  rw [if_neg h18]
  by_cases h19 : c = 'T'
  · subst h19; rfl
  rw [if_neg h19]
  by_cases h20 : c = 'U'
  · subst h20; rfl
  rw [if_neg h20]
  by_cases h21 : c = 'V'
  · subst h21; rfl
  rw [if_neg h21]
  by_cases h22 : c = 'W'
  · subst h22; rfl
  rw [if_neg h22]
  by_cases h23 : c = 'X'
  · subst h23; rfl
  rw [if_neg h23]
  by_cases h24 : c = 'Y'
  · subst h24; rfl
  rw [if_neg h24]
  by_cases h25 : c = 'Z'
  · subst h25; rfl
  rw [if_neg h25]

theorem isWs_eq_false_of_isDigit {c : Char} (h : isDigit c = true) : isWs c = false := by
  unfold isDigit at h
  simp only [Bool.or_eq_true, decide_eq_true_eq] at h
  rcases h with ((((((((h | h) | h) | h) | h) | h) | h) | h) | h) | h <;> subst h <;> rfl

theorem lowerChar_isDigit {c : Char} (h : isDigit c = true) : lowerChar c = c := by
  unfold isDigit at h
  simp only [Bool.or_eq_true, decide_eq_true_eq] at h
  rcases h with ((((((((h | h) | h) | h) | h) | h) | h) | h) | h) | h <;> subst h <;> rfl

theorem includes_iff {hay nd : List Char} : includes hay nd = true ↔ nd <:+: hay := by
  induction hay with
  | nil =>
    simp [includes, List.isEmpty_iff]
  | cons c t ih =>
    simp only [includes, Bool.or_eq_true, List.isPrefixOf_iff_prefix, ih]
    exact (List.infix_cons_iff).symm

theorem infix_dropWhile_of_head {c : Char} {tl hay : List Char} (hc : isWs c = false)
    (h : (c :: tl) <:+: hay) : (c :: tl) <:+: hay.dropWhile isWs := by
  induction hay with
  | nil => simp at h
  | cons a t ih =>
    rcases List.infix_cons_iff.mp h with hp | hi
    · obtain ⟨u, hu⟩ := hp
      have ha : a = c := by
        simpa using congrArg List.head? hu.symm
      subst ha
      rw [List.dropWhile_cons, if_neg (by simp [hc])]
      exact h
    · by_cases hwa : isWs a
      · rw [List.dropWhile_cons, if_pos hwa]
        exact ih hi
      · rw [List.dropWhile_cons, if_neg hwa]
        exact hi.trans (List.infix_cons (List.infix_refl t))

theorem trim_infix {s : List Char} : trim s <:+: s := by
  unfold trim
  have h2 : ((s.dropWhile isWs).reverse.dropWhile isWs) <:+ (s.dropWhile isWs).reverse :=
    List.dropWhile_suffix isWs
  have h3 : ((s.dropWhile isWs).reverse.dropWhile isWs).reverse <+: s.dropWhile isWs :=
    List.reverse_suffix.mp (by rw [List.reverse_reverse]; exact h2)
  exact h3.isInfix.trans (List.dropWhile_suffix isWs).isInfix

theorem infix_trim_iff {s nd : List Char} {c d : Char}
    (hh : nd.head? = some c) (hc : isWs c = false)
    (hl : nd.getLast? = some d) (hd : isWs d = false) :
    nd <:+: trim s ↔ nd <:+: s := by
  constructor
  · intro h
    exact h.trans trim_infix
  · intro h
    obtain ⟨tl, rfl⟩ : ∃ tl, nd = c :: tl := by
      cases nd with
      | nil => simp at hh
      | cons a t =>
        refine ⟨t, ?_⟩
        simp only [List.head?_cons, Option.some.injEq] at hh
        rw [hh]
    have h1 : (c :: tl) <:+: s.dropWhile isWs := infix_dropWhile_of_head hc h
    have h2 : (c :: tl).reverse <:+: (s.dropWhile isWs).reverse :=
      List.reverse_infix.mpr h1
    obtain ⟨tl2, hrev⟩ : ∃ tl2, (c :: tl).reverse = d :: tl2 := by
      cases hr : (c :: tl).reverse with
      | nil => exact absurd (congrArg List.length hr) (by simp)
      | cons a t =>
        refine ⟨t, ?_⟩
        have : (c :: tl).getLast? = some a := by
          rw [List.getLast?_eq_head?_reverse, hr, List.head?_cons]
        rw [hl] at this
        injection this with hda
        rw [hda]
    rw [hrev] at h2
    have h3 : (d :: tl2) <:+: ((s.dropWhile isWs).reverse).dropWhile isWs :=
      infix_dropWhile_of_head hd h2
    have h4 : (d :: tl2).reverse <:+: (((s.dropWhile isWs).reverse).dropWhile isWs).reverse :=
      List.reverse_infix.mpr h3
    have h5 : (d :: tl2).reverse = c :: tl := by rw [← hrev, List.reverse_reverse]
    rw [h5] at h4
    exact h4

theorem includes_trim {hay nd : List Char} (hg : goodEnds nd = true) :
    includes (trim hay) nd = includes hay nd := by
  apply bool_ext
  rw [includes_iff, includes_iff]
  unfold goodEnds at hg
  rcases h1 : nd.head? with _ | c <;> rcases h2 : nd.getLast? with _ | d <;>
    rw [h1, h2] at hg <;> simp at hg
  exact infix_trim_iff h1 (by simp [hg.1]) h2 (by simp [hg.2])

theorem lowerStr_trim (s : List Char) : lowerStr (trim s) = trim (lowerStr s) := by
  unfold trim lowerStr
  simp [List.dropWhile_map, ← List.map_reverse, Function.comp_def, isWs_lowerChar]

theorem any_includes_trim (l : List Char) (kws : List (List Char))
    (h : kws.all goodEnds = true) :
    kws.any (fun kw => includes (trim l) kw) = kws.any (fun kw => includes l kw) := by
  induction kws with
  | nil => rfl
  | cons kw rest ih =>
    simp only [List.all_cons, Bool.and_eq_true] at h
    simp only [List.any_cons, includes_trim h.1, ih h.2]

theorem isErrorLine_trim (l : List Char) : isErrorLine (trim l) = isErrorLine l := by
  unfold isErrorLine
  simp only [lowerStr_trim]
  exact any_includes_trim (lowerStr l) errorKeywords (by decide)

/-!  Lemmas about insertion-order deduplication.  -/

theorem dedupFirstAux_congr (s₁ s₂ l : List (List Char))
    (h : ∀ y, y ∈ s₁ ↔ y ∈ s₂) : dedupFirstAux s₁ l = dedupFirstAux s₂ l := by
  induction l generalizing s₁ s₂ with
  | nil => rfl
  | cons x xs ih =>
    unfold dedupFirstAux
    by_cases hx : x ∈ s₁
    · rw [if_pos hx, if_pos ((h x).mp hx), ih _ _ h]
    · rw [if_neg hx, if_neg (fun hx2 => hx ((h x).mpr hx2)), ih]
      intro y
      simp [List.mem_cons, h y]

theorem foldl_dedup (l : List (List Char)) : ∀ acc,
    l.foldl (fun a x => if x ∈ a then a else a ++ [x]) acc = acc ++ dedupFirstAux acc l := by
  induction l with
  | nil => intro acc; simp [dedupFirstAux]
  | cons x xs ih =>
    intro acc
    simp only [List.foldl_cons]
    by_cases hx : x ∈ acc
    · rw [if_pos hx, ih]
      conv_rhs => unfold dedupFirstAux
      rw [if_pos hx]
    · rw [if_neg hx, ih]
      conv_rhs => unfold dedupFirstAux
      rw [if_neg hx,
        dedupFirstAux_congr (acc ++ [x]) (x :: acc) xs
          (by intro y; simp [List.mem_append, List.mem_cons, or_comm])]
      simp

theorem dedupKeepFirst_eq_spec (l : List (List Char)) : dedupKeepFirst l = specDedupFirst l := by
  unfold dedupKeepFirst specDedupFirst
  rw [foldl_dedup l []]
  simp

theorem mem_dedupFirstAux (u : List Char) (l : List (List Char)) : ∀ seen,
    (u ∈ dedupFirstAux seen l ↔ (u ∈ l ∧ ¬ u ∈ seen)) := by
  induction l with
  | nil => intro seen; simp [dedupFirstAux]
  | cons x xs ih =>
    intro seen
    unfold dedupFirstAux
    by_cases hx : x ∈ seen
    · rw [if_pos hx, ih]
      simp only [List.mem_cons]
      constructor
      · rintro ⟨h1, h2⟩
        exact ⟨Or.inr h1, h2⟩
      · rintro ⟨h0 | h1, h2⟩
        · exact absurd (h0 ▸ hx) h2
        · exact ⟨h1, h2⟩
    · rw [if_neg hx]
      simp only [List.mem_cons, ih]
      constructor
      · rintro (rfl | ⟨h1, h2⟩)
        · exact ⟨Or.inl rfl, hx⟩
        · exact ⟨Or.inr h1, fun hs => h2 (Or.inr hs)⟩
      · rintro ⟨h0 | h1, h2⟩
        · exact Or.inl h0
        · by_cases hux : u = x
          · exact Or.inl hux
          · exact Or.inr ⟨h1, fun hs => hs.elim hux h2⟩

theorem nodup_dedupFirstAux (l : List (List Char)) : ∀ seen, (dedupFirstAux seen l).Nodup := by
  induction l with
  | nil => intro seen; simp [dedupFirstAux]
  | cons x xs ih =>
    intro seen
    unfold dedupFirstAux
    by_cases hx : x ∈ seen
    · rw [if_pos hx]; exact ih seen
    · rw [if_neg hx]
      refine List.nodup_cons.mpr ⟨fun hmem => ?_, ih _⟩
      exact ((mem_dedupFirstAux x xs (x :: seen)).mp hmem).2 (List.mem_cons_self x seen)

theorem dedupFirstAux_sublist (l : List (List Char)) : ∀ seen,
    List.Sublist (dedupFirstAux seen l) l := by
  induction l with
  | nil => intro _; simp [dedupFirstAux]
  | cons x xs ih =>
    intro seen
    unfold dedupFirstAux
    by_cases hx : x ∈ seen
    · rw [if_pos hx]; exact (ih seen).cons x
    · rw [if_neg hx]; exact (ih (x :: seen)).cons₂ x

theorem mem_dedupKeepFirst {u : List Char} {l : List (List Char)} :
    u ∈ dedupKeepFirst l ↔ u ∈ l := by
  rw [dedupKeepFirst_eq_spec]
  unfold specDedupFirst
  rw [mem_dedupFirstAux]
  simp

theorem nodup_dedupKeepFirst (l : List (List Char)) : (dedupKeepFirst l).Nodup := by
  rw [dedupKeepFirst_eq_spec]; exact nodup_dedupFirstAux l []

theorem dedupKeepFirst_sublist (l : List (List Char)) :
    List.Sublist (dedupKeepFirst l) l := by
  rw [dedupKeepFirst_eq_spec]; exact dedupFirstAux_sublist l []

/-!  Characterization of the matchers.  -/

theorem matchLitCI_some {p s m r : List Char} (h : matchLitCI p s = some (m, r)) :
    lowerStr m = p ∧ s = m ++ r := by
  induction p generalizing s m r with
  | nil =>
    simp only [matchLitCI, Option.some.injEq, Prod.mk.injEq] at h
    obtain ⟨rfl, rfl⟩ := h
    simp [lowerStr]
  | cons q ps ih =>
    cases s with
    | nil => simp [matchLitCI] at h
    | cons c cs =>
      simp only [matchLitCI] at h
      by_cases hc : lowerChar c = q
      · rw [if_pos hc] at h
        cases hm : matchLitCI ps cs with
        | none => rw [hm] at h; cases h
        | some mr =>
          obtain ⟨m2, r2⟩ := mr
          rw [hm] at h
          simp only [Option.some.injEq, Prod.mk.injEq] at h
          obtain ⟨rfl, rfl⟩ := h
          obtain ⟨ih1, ih2⟩ := ih hm
          refine ⟨?_, by rw [ih2]; rfl⟩
          simp only [lowerStr, List.map_cons] at ih1 ⊢
          rw [hc, ih1]
      · rw [if_neg hc] at h; cases h

theorem matchLitCI_complete {p m : List Char} (r : List Char) (h : lowerStr m = p) :
    matchLitCI p (m ++ r) = some (m, r) := by
  induction m generalizing p with
  | nil => subst h; rfl
  | cons c m2 ih =>
    subst h
    simp only [lowerStr, List.map_cons, List.cons_append, matchLitCI, if_true,
      List.append_eq]
    have hih := ih (p := lowerStr m2) rfl
    simp only [lowerStr] at hih
    rw [hih]

theorem matchLitCI_isSome_iff {p s : List Char} :
    (matchLitCI p s).isSome = true ↔ p <+: lowerStr s := by
  constructor
  · intro h
    obtain ⟨⟨m, r⟩, hmr⟩ := Option.isSome_iff_exists.mp h
    obtain ⟨h1, rfl⟩ := matchLitCI_some hmr
    exact ⟨lowerStr r, by rw [← h1]; simp [lowerStr]⟩
  · rintro ⟨t, ht⟩
    have hm : lowerStr (s.take p.length) = p := by
      have h2 : lowerStr (s.take p.length) = (lowerStr s).take p.length := by
        simp [lowerStr]
      rw [h2, ← ht]
      exact List.take_left p t
    have hc := matchLitCI_complete (s.drop p.length) hm
    rw [List.take_append_drop] at hc
    rw [hc]
    rfl

theorem matchLitCI_none {p s : List Char} (h : ¬ p <+: lowerStr s) :
    matchLitCI p s = none := by
  cases h1 : matchLitCI p s with
  | none => rfl
  | some mr =>
    exact absurd (matchLitCI_isSome_iff.mp (by rw [h1]; rfl)) h

theorem not_prefix_of_take_ne {p q : List Char} (z : List Char) (hlen : p.length ≤ q.length)
    (hne : p ≠ q.take p.length) : ¬ p <+: (q ++ z) := by
  intro hp
  apply hne
  have h1 := List.prefix_iff_eq_take.mp hp
  rwa [List.take_append_of_le_length hlen] at h1

theorem lowerStr_append (a b : List Char) : lowerStr (a ++ b) = lowerStr a ++ lowerStr b := by
  simp [lowerStr]

theorem lowerStr_length (a : List Char) : (lowerStr a).length = a.length := by
  simp [lowerStr]

theorem head_dropWhile_digits (l : List Char) :
    ∀ c, (l.dropWhile isDigit).head? = some c → isDigit c = false := by
  induction l with
  | nil => intro c h; simp at h
  | cons a cs ih =>
    intro c h
    rw [List.dropWhile_cons] at h
    by_cases ha : isDigit a = true
    · rw [if_pos ha] at h; exact ih c h
    · rw [if_neg ha] at h
      simp only [List.head?_cons, Option.some.injEq] at h
      rw [← h]
      simpa using ha

theorem takeWhile_append_digits {d : List Char} (r : List Char)
    (hall : d.all isDigit = true) (hhd : ∀ c, r.head? = some c → isDigit c = false) :
    (d ++ r).takeWhile isDigit = d ∧ (d ++ r).dropWhile isDigit = r := by
  induction d with
  | nil =>
    simp only [List.nil_append]
    cases r with
    | nil => simp
    | cons c cs =>
      have hc := hhd c rfl
      constructor
      · rw [List.takeWhile_cons, if_neg (by simp [hc])]
      · rw [List.dropWhile_cons, if_neg (by simp [hc])]
  | cons e d2 ih =>
    simp only [List.all_cons, Bool.and_eq_true] at hall
    obtain ⟨ih1, ih2⟩ := ih hall.2
    constructor
    · rw [List.cons_append, List.takeWhile_cons, if_pos hall.1, ih1]
    · rw [List.cons_append, List.dropWhile_cons, if_pos hall.1, ih2]

theorem matchPort_some {s d r : List Char} (h : matchPort s = some (d, r)) :
    s = d ++ r ∧ d ≠ [] ∧ d.all isDigit = true ∧
      (∀ c, r.head? = some c → isDigit c = false) := by
  unfold matchPort at h
  by_cases he : (s.takeWhile isDigit).isEmpty = true
  · rw [if_pos he] at h; cases h
  · rw [if_neg he] at h
    simp only [Option.some.injEq, Prod.mk.injEq] at h
    obtain ⟨rfl, rfl⟩ := h
    refine ⟨(List.takeWhile_append_dropWhile isDigit s).symm, ?_, List.all_takeWhile,
      head_dropWhile_digits s⟩
    intro hnil
    rw [hnil] at he
    exact he rfl

theorem matchPort_complete {d : List Char} (r : List Char) (hne : d ≠ [])
    (hall : d.all isDigit = true) (hhd : ∀ c, r.head? = some c → isDigit c = false) :
    matchPort (d ++ r) = some (d, r) := by
  obtain ⟨h1, h2⟩ := takeWhile_append_digits r hall hhd
  unfold matchPort
  rw [h1, h2, if_neg (by simpa [List.isEmpty_iff] using hne)]

theorem matchPort_isSome_of_digit {e : Char} (rest : List Char) (he : isDigit e = true) :
    (matchPort (e :: rest)).isSome = true := by
  unfold matchPort
  rw [List.takeWhile_cons, if_pos he, if_neg (by simp)]
  rfl

theorem matchLitPort_some {lit s m r : List Char} (h : matchLitPort lit s = some (m, r)) :
    ∃ pre d, m = pre ++ d ∧ lowerStr pre = lit ∧ d ≠ [] ∧ d.all isDigit = true ∧
      s = m ++ r ∧ (∀ c, r.head? = some c → isDigit c = false) := by
  unfold matchLitPort at h
  cases h1 : matchLitCI lit s with
  | none => rw [h1] at h; cases h
  | some mr =>
    obtain ⟨m1, r1⟩ := mr
    rw [h1] at h
    dsimp only at h
    cases h2 : matchPort r1 with
    | none => rw [h2] at h; cases h
    | some dr =>
      obtain ⟨d, r2⟩ := dr
      rw [h2] at h
      dsimp only at h
      simp only [Option.some.injEq, Prod.mk.injEq] at h
      obtain ⟨rfl, rfl⟩ := h
      obtain ⟨hl1, hl2⟩ := matchLitCI_some h1
      obtain ⟨hp1, hp2, hp3, hp4⟩ := matchPort_some h2
      exact ⟨m1, d, rfl, hl1, hp2, hp3, by rw [hl2, hp1, List.append_assoc], hp4⟩

theorem matchLitPort_complete {lit pre d : List Char} (r : List Char)
    (hpre : lowerStr pre = lit) (hne : d ≠ []) (hall : d.all isDigit = true)
    (hhd : ∀ c, r.head? = some c → isDigit c = false) :
    matchLitPort lit ((pre ++ d) ++ r) = some (pre ++ d, r) := by
  unfold matchLitPort
  rw [List.append_assoc, matchLitCI_complete (d ++ r) hpre]
  dsimp only
  rw [matchPort_complete r hne hall hhd]

theorem matchLitPort_isSome {lit pre d : List Char} (rest : List Char)
    (hpre : lowerStr pre = lit) (hd : d ≠ []) (hall : d.all isDigit = true) :
    (matchLitPort lit ((pre ++ d) ++ rest)).isSome = true := by
  unfold matchLitPort
  rw [List.append_assoc, matchLitCI_complete (d ++ rest) hpre]
  dsimp only
  cases d with
  | nil => exact absurd rfl hd
  | cons e d2 =>
    simp only [List.all_cons, Bool.and_eq_true] at hall
    have hs := matchPort_isSome_of_digit (d2 ++ rest) hall.1
    rw [List.cons_append]
    rcases hmp : matchPort (e :: (d2 ++ rest)) with _ | dr
    · rw [hmp] at hs; simp at hs
    · rfl

theorem matchLitPort_none {lit s : List Char} (h : ¬ lit <+: lowerStr s) :
    matchLitPort lit s = none := by
  unfold matchLitPort
  rw [matchLitCI_none h]

theorem lowerStr_digits {d : List Char} (h : d.all isDigit = true) : lowerStr d = d := by
  induction d with
  | nil => rfl
  | cons e d2 ih =>
    simp only [List.all_cons, Bool.and_eq_true] at h
    simp only [lowerStr, List.map_cons]
    rw [lowerChar_isDigit h.1]
    have h2 := ih h.2
    simp only [lowerStr] at h2
    rw [h2]

theorem lowerStr_append_split (pre : List Char) {A B : List Char} (h : lowerStr pre = A ++ B) :
    ∃ pa pb, pre = pa ++ pb ∧ lowerStr pa = A ∧ lowerStr pb = B := by
  refine ⟨pre.take A.length, pre.drop A.length, (List.take_append_drop _ _).symm, ?_, ?_⟩
  · have h2 : lowerStr (pre.take A.length) = (lowerStr pre).take A.length := by
      simp [lowerStr]
    rw [h2, h]
    exact List.take_left A B
  · have h2 : lowerStr (pre.drop A.length) = (lowerStr pre).drop A.length := by
      simp [lowerStr]
    rw [h2, h]
    exact List.drop_left A B

theorem specUrlShape_of_litPort {lit m r s : List Char} (hlit : lit ∈ urlLits)
    (h : matchLitPort lit s = some (m, r)) :
    s = m ++ r ∧ m ≠ [] ∧ specUrlShape m = true := by
  obtain ⟨pre, d, rfl, hpre, hdne, hall, hs, hhd⟩ := matchLitPort_some h
  refine ⟨hs, ?_, ?_⟩
  · intro hnil
    exact hdne (List.append_eq_nil.mp hnil).2
  · unfold specUrlShape
    rw [List.any_eq_true]
    refine ⟨lit, hlit, ?_⟩
    have hlow : lowerStr (pre ++ d) = lit ++ d := by
      rw [lowerStr_append, hpre, lowerStr_digits hall]
    have hlen : lit.length = pre.length := by
      rw [← hpre, lowerStr_length]
    have hp : lit.isPrefixOf (lowerStr (pre ++ d)) = true := by
      rw [List.isPrefixOf_iff_prefix, hlow]
      exact ⟨d, rfl⟩
    have hdrop : (pre ++ d).drop lit.length = d := by
      rw [hlen]
      exact List.drop_left pre d
    rw [Bool.and_eq_true, hp, hdrop]
    refine ⟨rfl, ?_⟩
    unfold portDigits
    rw [Bool.and_eq_true]
    exact ⟨by simpa [List.isEmpty_iff] using hdne, hall⟩

theorem matchAlt1_some {s m r : List Char} (h : matchAlt1 s = some (m, r)) :
    matchLitPort (String.toList "https://localhost:") s = some (m, r) ∨
    matchLitPort (String.toList "http://localhost:") s = some (m, r) := by
  unfold matchAlt1 at h
  cases h1 : matchLitCI (String.toList "http") s with
  | none => rw [h1] at h; cases h
  | some mr0 =>
    obtain ⟨m0, r0⟩ := mr0
    rw [h1] at h
    dsimp only at h
    obtain ⟨hl0, hs0⟩ := matchLitCI_some h1
    cases h2 : matchLitCI (String.toList "s") r0 with
    | some mrs =>
      obtain ⟨ms, rs⟩ := mrs
      rw [h2] at h
      dsimp only at h
      obtain ⟨hls, hss⟩ := matchLitCI_some h2
      cases h3 : matchLitPort (String.toList "://localhost:") rs with
      | none => rw [h3] at h; cases h
      | some mr1 =>
        obtain ⟨m1, r1⟩ := mr1
        rw [h3] at h
        dsimp only at h
        simp only [Option.some.injEq, Prod.mk.injEq] at h
        obtain ⟨rfl, rfl⟩ := h
        left
        obtain ⟨pre, dd, rfl, hpre, hdne, hall, hrs, hhd⟩ := matchLitPort_some h3
        have hlow : lowerStr ((m0 ++ ms) ++ pre) = String.toList "https://localhost:" := by
          rw [lowerStr_append, lowerStr_append, hl0, hls, hpre]
          decide
        have hc := matchLitPort_complete (d := dd) r1 hlow hdne hall hhd
        rw [hs0, hss, hrs]
        simpa [List.append_assoc] using hc
    | none =>
      rw [h2] at h
      dsimp only at h
      cases h3 : matchLitPort (String.toList "://localhost:") r0 with
      | none => rw [h3] at h; cases h
      | some mr1 =>
        obtain ⟨m1, r1⟩ := mr1
        rw [h3] at h
        dsimp only at h
        simp only [Option.some.injEq, Prod.mk.injEq] at h
        obtain ⟨rfl, rfl⟩ := h
        right
        obtain ⟨pre, dd, rfl, hpre, hdne, hall, hr0, hhd⟩ := matchLitPort_some h3
        have hlow : lowerStr (m0 ++ pre) = String.toList "http://localhost:" := by
          rw [lowerStr_append, hl0, hpre]
          decide
        have hc := matchLitPort_complete (d := dd) r1 hlow hdne hall hhd
        rw [hs0, hr0]
        simpa [List.append_assoc] using hc

theorem matchUrlAt_some {s m r : List Char} (h : matchUrlAt s = some (m, r)) :
    s = m ++ r ∧ m ≠ [] ∧ specUrlShape m = true := by
  unfold matchUrlAt at h
  cases h1 : matchAlt1 s with
  | some mr =>
    rw [h1] at h
    dsimp only at h
    obtain rfl : mr = (m, r) := by simpa using h
    rcases matchAlt1_some h1 with h2 | h2
    · exact specUrlShape_of_litPort (by simp [urlLits]) h2
    · exact specUrlShape_of_litPort (by simp [urlLits]) h2
  | none =>
    rw [h1] at h
    dsimp only at h
    cases h2 : matchAlt2 s with
    | some mr =>
      rw [h2] at h
      dsimp only at h
      obtain rfl : mr = (m, r) := by simpa using h
      unfold matchAlt2 at h2
      exact specUrlShape_of_litPort (by simp [urlLits]) h2
    | none =>
      rw [h2] at h
      dsimp only at h
      unfold matchAlt3 at h
      exact specUrlShape_of_litPort (by simp [urlLits]) h

theorem matchUrlAt_isSome_alt1 {s : List Char} (h : (matchAlt1 s).isSome = true) :
    (matchUrlAt s).isSome = true := by
  unfold matchUrlAt
  cases h1 : matchAlt1 s with
  | some mr => rfl
  | none => rw [h1] at h; simp at h

theorem matchUrlAt_isSome_alt2 {s : List Char} (h : (matchAlt2 s).isSome = true) :
    (matchUrlAt s).isSome = true := by
  unfold matchUrlAt
  cases h1 : matchAlt1 s with
  | some mr => rfl
  | none =>
    cases h2 : matchAlt2 s with
    | some mr => rfl
    | none => rw [h2] at h; simp at h

theorem matchUrlAt_isSome_alt3 {s : List Char} (h : (matchAlt3 s).isSome = true) :
    (matchUrlAt s).isSome = true := by
  unfold matchUrlAt
  cases h1 : matchAlt1 s with
  | some mr => rfl
  | none =>
    cases h2 : matchAlt2 s with
    | some mr => rfl
    | none => exact h

theorem matchUrlAt_isSome_of_prefix {u s : List Char} (hshape : specUrlShape u = true)
    (hpre : u <+: s) : (matchUrlAt s).isSome = true := by
  unfold specUrlShape at hshape
  rw [List.any_eq_true] at hshape
  obtain ⟨lit, hlit, hcond⟩ := hshape
  rw [Bool.and_eq_true] at hcond
  obtain ⟨hp, hport⟩ := hcond
  rw [List.isPrefixOf_iff_prefix] at hp
  unfold portDigits at hport
  rw [Bool.and_eq_true] at hport
  obtain ⟨hne, hall⟩ := hport
  obtain ⟨tail, htail⟩ := hp
  obtain ⟨rest, rfl⟩ := hpre
  obtain ⟨pre, d, hu, hpre2, hd2⟩ := lowerStr_append_split u htail.symm
  have hlen : lit.length = pre.length := by rw [← hpre2, lowerStr_length]
  have hdrop : u.drop lit.length = d := by
    rw [hu, hlen]
    exact List.drop_left pre d
  rw [hdrop] at hne hall
  have hdne : d ≠ [] := by simpa [List.isEmpty_iff] using hne
  subst hu
  simp only [urlLits, List.mem_cons, List.not_mem_nil, or_false] at hlit
  rcases hlit with rfl | rfl | rfl | rfl
  · apply matchUrlAt_isSome_alt1
    obtain ⟨pa, p2, rfl, hpa, hp2⟩ := lowerStr_append_split pre
      (A := String.toList "http") (B := String.toList "s://localhost:")
      (by rw [hpre2]; decide)
    obtain ⟨pb, pc, rfl, hpb, hpc⟩ := lowerStr_append_split p2
      (A := String.toList "s") (B := String.toList "://localhost:")
      (by rw [hp2]; decide)
    have harg : ((pa ++ (pb ++ pc)) ++ d) ++ rest = pa ++ (pb ++ (pc ++ (d ++ rest))) := by
      simp [List.append_assoc]
    rw [harg]
    unfold matchAlt1
    rw [matchLitCI_complete (pb ++ (pc ++ (d ++ rest))) hpa]
    dsimp only
    rw [matchLitCI_complete (pc ++ (d ++ rest)) hpb]
    dsimp only
    have hsome := matchLitPort_isSome rest hpc hdne hall
    rw [List.append_assoc] at hsome
    rcases hmp : matchLitPort (String.toList "://localhost:") (pc ++ (d ++ rest)) with _ | mr
    · rw [hmp] at hsome; simp at hsome
    · rfl
  · apply matchUrlAt_isSome_alt1
    obtain ⟨pa, pc, rfl, hpa, hpc⟩ := lowerStr_append_split pre
      (A := String.toList "http") (B := String.toList "://localhost:")
      (by rw [hpre2]; decide)
    have harg : ((pa ++ pc) ++ d) ++ rest = pa ++ (pc ++ (d ++ rest)) := by
      simp [List.append_assoc]
    rw [harg]
    unfold matchAlt1
    rw [matchLitCI_complete (pc ++ (d ++ rest)) hpa]
    dsimp only
    have hnos : matchLitCI (String.toList "s") (pc ++ (d ++ rest)) = none := by
      apply matchLitCI_none
      rw [lowerStr_append, hpc]
      exact not_prefix_of_take_ne _ (by decide) (by decide)
    rw [hnos]
    dsimp only
    have hsome := matchLitPort_isSome rest hpc hdne hall
    rw [List.append_assoc] at hsome
    rcases hmp : matchLitPort (String.toList "://localhost:") (pc ++ (d ++ rest)) with _ | mr
    · rw [hmp] at hsome; simp at hsome
    · rfl
  · exact matchUrlAt_isSome_alt2 (matchLitPort_isSome rest hpre2 hdne hall)
  · exact matchUrlAt_isSome_alt3 (matchLitPort_isSome rest hpre2 hdne hall)

theorem dedupKeepFirst_eq_nil_iff {l : List (List Char)} : dedupKeepFirst l = [] ↔ l = [] := by
  cases l with
  | nil => simp [dedupKeepFirst]
  | cons x xs =>
    rw [dedupKeepFirst_eq_spec]
    unfold specDedupFirst dedupFirstAux
    simp

/-!  The global scan: equations, soundness and completeness.  -/

theorem scanGo_skip (n : Nat) : ∀ l : List Char, scanGo n l = scanGo 0 (l.drop n) := by
  induction n with
  | zero => intro l; rw [List.drop_zero]
  | succ k ih =>
    intro l
    cases l with
    | nil => rfl
    | cons c cs =>
      rw [List.drop_succ_cons]
      exact ih cs

theorem scanUrls_cons_some {c : Char} {cs m r : List Char}
    (h : matchUrlAt (c :: cs) = some (m, r)) : scanUrls (c :: cs) = m :: scanUrls r := by
  obtain ⟨hs, hne, _⟩ := matchUrlAt_some h
  obtain ⟨m2, rfl⟩ : ∃ m2, m = c :: m2 := by
    cases m with
    | nil => exact absurd rfl hne
    | cons a m2 =>
      refine ⟨m2, ?_⟩
      have hha := congrArg List.head? hs
      simp at hha
      rw [hha]
  have hcs : cs = m2 ++ r := by
    simpa using hs
  unfold scanUrls
  simp only [scanGo]
  rw [h]
  dsimp only
  have hlen : (c :: m2).length - 1 = m2.length := by simp
  rw [hlen, scanGo_skip m2.length cs, hcs, List.drop_left]

theorem scanUrls_cons_none {c : Char} {cs : List Char} (h : matchUrlAt (c :: cs) = none) :
    scanUrls (c :: cs) = scanUrls cs := by
  unfold scanUrls
  simp only [scanGo]
  rw [h]

theorem scanGo_sound (l : List Char) : ∀ n u, u ∈ scanGo n l →
    specUrlShape u = true ∧ u <:+: l := by
  induction l with
  | nil => intro n u h; simp [scanGo] at h
  | cons c cs ih =>
    intro n u h
    cases n with
    | succ k =>
      have h2 : u ∈ scanGo k cs := h
      obtain ⟨h3, h4⟩ := ih k u h2
      exact ⟨h3, h4.trans (List.infix_cons (List.infix_refl cs))⟩
    | zero =>
      rcases hm : matchUrlAt (c :: cs) with _ | ⟨m, r⟩
      · have h2 : u ∈ scanGo 0 cs := by
          have heq : scanGo 0 (c :: cs) = scanGo 0 cs := by
            simp only [scanGo]; rw [hm]
          rwa [heq] at h
        obtain ⟨h3, h4⟩ := ih 0 u h2
        exact ⟨h3, h4.trans (List.infix_cons (List.infix_refl cs))⟩
      · have heq : scanGo 0 (c :: cs) = m :: scanGo (m.length - 1) cs := by
          simp only [scanGo]; rw [hm]
        rw [heq] at h
        rcases List.mem_cons.mp h with rfl | h2
        · obtain ⟨hs, hne, hshape⟩ := matchUrlAt_some hm
          exact ⟨hshape, ⟨[], r, by simpa using hs.symm⟩⟩
        · obtain ⟨h3, h4⟩ := ih (m.length - 1) u h2
          exact ⟨h3, h4.trans (List.infix_cons (List.infix_refl cs))⟩

theorem scanUrls_ne_nil {u : List Char} (hshape : specUrlShape u = true) :
    ∀ {l : List Char}, u <:+: l → scanUrls l ≠ [] := by
  intro l
  induction l with
  | nil =>
    intro hinf
    rw [List.infix_nil] at hinf
    subst hinf
    exact absurd hshape (by decide)
  | cons c cs ih =>
    intro hinf
    rcases hm : matchUrlAt (c :: cs) with _ | ⟨m, r⟩
    · rcases List.infix_cons_iff.mp hinf with hp | hi
      · have hsome := matchUrlAt_isSome_of_prefix hshape hp
        rw [hm] at hsome
        simp at hsome
      · rw [scanUrls_cons_none hm]
        exact ih hi
    · rw [scanUrls_cons_some hm]
      simp

theorem extractUrls_sound (l : List Char) :
    ∀ u ∈ extractUrls l, specUrlShape u = true ∧ u <:+: l := by
  intro u hu
  unfold extractUrls at hu
  exact scanGo_sound l 0 u (mem_dedupKeepFirst.mp hu)

theorem extractUrls_ne_nil_iff (l : List Char) :
    extractUrls l ≠ [] ↔ ∃ u, specUrlShape u = true ∧ u <:+: l := by
  constructor
  · intro h
    rcases hs : scanUrls l with _ | ⟨u, us⟩
    · exfalso
      apply h
      unfold extractUrls
      rw [hs]
      rfl
    · have hmem : u ∈ scanUrls l := by rw [hs]; exact List.mem_cons_self u us
      obtain ⟨h1, h2⟩ := scanGo_sound l 0 u hmem
      exact ⟨u, h1, h2⟩
  · rintro ⟨u, h1, h2⟩ h3
    apply scanUrls_ne_nil h1 h2
    apply dedupKeepFirst_eq_nil_iff.mp
    exact h3

theorem shape_ends {u : List Char} (h : specUrlShape u = true) : goodEnds u = true := by
  unfold specUrlShape at h
  rw [List.any_eq_true] at h
  obtain ⟨lit, hlit, hcond⟩ := h
  rw [Bool.and_eq_true] at hcond
  obtain ⟨hp, hport⟩ := hcond
  rw [List.isPrefixOf_iff_prefix] at hp
  unfold portDigits at hport
  rw [Bool.and_eq_true] at hport
  obtain ⟨hne0, hall⟩ := hport
  have hdne : u.drop lit.length ≠ [] := by simpa [List.isEmpty_iff] using hne0
  have hlast : ∃ d, u.getLast? = some d ∧ isDigit d = true := by
    rcases hld : (u.drop lit.length).getLast? with _ | d
    · rw [List.getLast?_eq_none_iff] at hld
      exact absurd hld hdne
    · refine ⟨d, ?_, ?_⟩
      · conv_lhs => rw [(List.take_append_drop lit.length u).symm]
        rw [List.getLast?_append, hld]
        rfl
      · have hdm := List.mem_of_getLast?_eq_some hld
        have hda := List.all_eq_true.mp hall
        exact hda d hdm
  have hhead : ∃ hc, lit.head? = some hc ∧ isWs hc = false := by
    simp only [urlLits, List.mem_cons, List.not_mem_nil, or_false] at hlit
    rcases hlit with rfl | rfl | rfl | rfl <;> exact ⟨_, rfl, by decide⟩
  obtain ⟨hc, hhc, hwc⟩ := hhead
  obtain ⟨litr, rfl⟩ := List.head?_eq_some_iff.mp hhc
  obtain ⟨t, ht⟩ := hp
  cases u with
  | nil => simp [lowerStr] at ht
  | cons c u2 =>
    simp only [lowerStr, List.map_cons, List.cons_append] at ht
    have hcc : lowerChar c = hc := by
      have hhh := congrArg List.head? ht
      exact (by simpa using hhh : hc = lowerChar c).symm
    have hwsc : isWs c = false := by
      rw [← isWs_lowerChar, hcc]
      exact hwc
    obtain ⟨d, hld, hdd⟩ := hlast
    unfold goodEnds
    rw [List.head?_cons, hld]
    simp [hwsc, isWs_eq_false_of_isDigit hdd]

theorem extractUrls_trim_ne_nil (l : List Char) :
    (extractUrls (trim l) ≠ []) ↔ (extractUrls l ≠ []) := by
  rw [extractUrls_ne_nil_iff, extractUrls_ne_nil_iff]
  constructor
  · rintro ⟨u, h1, h2⟩
    exact ⟨u, h1, h2.trans trim_infix⟩
  · rintro ⟨u, h1, h2⟩
    refine ⟨u, h1, ?_⟩
    have hg := shape_ends h1
    unfold goodEnds at hg
    rcases hh : u.head? with _ | c <;> rcases hl2 : u.getLast? with _ | d <;>
      rw [hh, hl2] at hg <;> simp at hg
    exact (infix_trim_iff hh (by simp [hg.1]) hl2 (by simp [hg.2])).mpr h2

theorem shouldShowLine_eq (t : List Char) : shouldShowLine t = isImportantLine t := by
  unfold shouldShowLine isImportantLine
  by_cases h1 : 0 < (extractUrls t).length
  · rw [if_pos h1]
    have h2 : (extractUrls t).isEmpty = false := by
      rcases hx : extractUrls t with _ | ⟨a, l2⟩
      · rw [hx] at h1; simp at h1
      · rfl
    simp [h2]
  · rw [if_neg h1]
    have h2 : (extractUrls t).isEmpty = true := by
      rcases hx : extractUrls t with _ | ⟨a, l2⟩
      · rfl
      · rw [hx] at h1; simp at h1
    rw [h2]
    by_cases h3 : isErrorLine t
    · simp [h3]
    · simp [h3]

theorem isImportantLine_trim (l : List Char) : isImportantLine (trim l) = isImportantLine l := by
  unfold isImportantLine
  have h1 : (extractUrls (trim l)).isEmpty = (extractUrls l).isEmpty := by
    apply bool_ext
    rw [List.isEmpty_iff, List.isEmpty_iff]
    exact not_iff_not.mp (extractUrls_trim_ne_nil l)
  have h3 : List.any importantKeywords (fun keyword => includes (lowerStr (trim l)) keyword) =
      List.any importantKeywords (fun keyword => includes (lowerStr l) keyword) := by
    simp only [lowerStr_trim]
    exact any_includes_trim (lowerStr l) importantKeywords (by decide)
  rw [h1, isErrorLine_trim, h3]

/-!  The claims.  -/

/-- C1: `extractUrls` returns exactly the regex scan's matches of the four
URL patterns: every returned string matches one of the patterns
case-insensitively and occurs in the line, the result is non-empty exactly
when some pattern-shaped substring occurs, and the scan's match list is
deduplicated by exact string equality keeping first occurrences in order. -/
theorem extractUrls_matches_spec (s : List Char) :
    extractUrls s = specDedupFirst (scanUrls s) ∧
    (∀ u, u ∈ extractUrls s ↔ u ∈ scanUrls s) ∧
    (∀ u, u ∈ scanUrls s → specUrlShape u = true ∧ u <:+: s) ∧
    (extractUrls s).Nodup ∧
    List.Sublist (extractUrls s) (scanUrls s) ∧
    (extractUrls s ≠ [] ↔ ∃ u, specUrlShape u = true ∧ u <:+: s) :=
  ⟨dedupKeepFirst_eq_spec _, fun _ => mem_dedupKeepFirst, scanGo_sound s 0,
    nodup_dedupKeepFirst _, dedupKeepFirst_sublist _, extractUrls_ne_nil_iff s⟩

/-- C1 witness: in `x localhost:3000` the scan finds `localhost:3000`, which
is pattern-shaped and occurs in the line. -/
theorem extractUrls_matches_spec_witness :
    specUrlShape (String.toList "localhost:3000") = true ∧
    String.toList "localhost:3000" <:+: String.toList "x localhost:3000" :=
  (extractUrls_matches_spec (String.toList "x localhost:3000")).2.2.1
    (String.toList "localhost:3000") (by decide)

/-- C2 counterexample: on `Server on http://localhost:3000 and
LOCALHOST:3000` the code does not return the single-element list the claim
asserts. -/
theorem extractUrls_case_dedup_cex :
    extractUrls (String.toList "Server on http://localhost:3000 and LOCALHOST:3000") ≠
      [String.toList "http://localhost:3000"] := by
  decide

/-- C2 (amended): deduplication is by exact, case-sensitive string equality,
so the differently-cased second match is kept and the call returns both
`http://localhost:3000` and `LOCALHOST:3000`. -/
theorem extractUrls_case_dedup_amended :
    extractUrls (String.toList "Server on http://localhost:3000 and LOCALHOST:3000") =
      [String.toList "http://localhost:3000", String.toList "LOCALHOST:3000"] := by
  decide

/-- C3 counterexample: a worktree whose process emits the same URL in two
output chunks accumulates it twice in `urls` — the raw collection does
contain duplicates after the second chunk. -/
theorem urls_accum_dup_cex :
    ¬ (runInfo
        { worktree := { path := [], branch := [], commit := [] },
          behavior := { chunks := [String.toList "localhost:3000",
                                   String.toList "localhost:3000"],
                        exit := ProcExit.exited 0 } }).urls.Nodup := by
  decide

/-- C3 (amended): each chunk's URL batch is duplicate-free and the summary's
per-worktree view `[...new Set(info.urls)]` is duplicate-free; only the raw
accumulator may repeat a URL that appears in several chunks. -/
theorem urls_dedup_amended :
    (∀ chunk : List Char, (extractUrls chunk).Nodup) ∧
    (∀ r : WorktreeRun, (summaryWorktreeUrls (runInfo r)).Nodup) :=
  ⟨fun _ => nodup_dedupKeepFirst _, fun _ => nodup_dedupKeepFirst _⟩

/-- C4: the global URL section equals the first-seen deduplication of the
concatenation of all per-worktree URL lists taken in selection order; it is
duplicate-free and lists a URL exactly when some worktree collected it. -/
theorem globalUrls_spec (runs : List WorktreeRun) :
    summaryGlobalUrls runs =
      specDedupFirst ((processInfos runs).flatMap (fun info => info.urls)) ∧
    (summaryGlobalUrls runs).Nodup ∧
    (∀ u, u ∈ summaryGlobalUrls runs ↔ ∃ info ∈ processInfos runs, u ∈ info.urls) := by
  refine ⟨dedupKeepFirst_eq_spec _, nodup_dedupKeepFirst _, fun u => ?_⟩
  unfold summaryGlobalUrls
  rw [mem_dedupKeepFirst]
  simp [List.mem_flatMap]

/-- C5: with an empty worktree selection the run command short-circuits to
the `emptySelection` no-op result, and the run phase produces no runner and
no process accumulator at all. -/
theorem emptySelection_noop :
    runCommandModel [] = RunCommandResult.emptySelection ∧
    execute ([] : List WorktreeRun) = [] ∧
    processInfos ([] : List WorktreeRun) = [] :=
  ⟨rfl, rfl, rfl⟩

/-- C6: the all-settled join returns one entry per selected worktree in
selection order, and the entry at each index is a function of that
worktree's own behavior alone — a sibling's failure cannot change, cancel or
suppress it; exit 0 settles as fulfilled, a non-zero exit as rejected with
the exit-code message, a spawn error as rejected with its message. -/
theorem execute_independent (runs : List WorktreeRun) (i : Nat) (r : WorktreeRun)
    (h : runs[i]? = some r) :
    (execute runs).length = runs.length ∧
    (execute runs)[i]? = some (runOne r) ∧
    outcomeOfExit (ProcExit.exited 0) = RunOutcome.fulfilled ∧
    (∀ code, code ≠ 0 → outcomeOfExit (ProcExit.exited code) =
      RunOutcome.rejected (String.toList ("Command exited with code " ++ toString code))) ∧
    (∀ msg, outcomeOfExit (ProcExit.spawnError msg) = RunOutcome.rejected msg) := by
  refine ⟨by simp [execute], ?_, rfl, ?_, fun msg => rfl⟩
  · simp [execute, List.getElem?_map, h]
  · intro code hcode
    cases code with
    | zero => exact absurd rfl hcode
    | succ k => rfl

/-- C6 witness: one worktree runs `exit 1`, its sibling runs `exit 0`; the
results report the rejected outcome with its message and the fulfilled
outcome, both present. -/
theorem execute_independent_witness :
    (execute [demoRunFail, demoRunOk])[0]? =
      some (runInfo demoRunFail,
        RunOutcome.rejected (String.toList "Command exited with code 1")) ∧
    (execute [demoRunFail, demoRunOk])[1]? =
      some (runInfo demoRunOk, RunOutcome.fulfilled) := by
  constructor
  · rw [(execute_independent [demoRunFail, demoRunOk] 0 demoRunFail (by decide)).2.1]
    decide
  · rw [(execute_independent [demoRunFail, demoRunOk] 1 demoRunOk (by decide)).2.1]
    decide

/-- C7: the route-appended variant is `url ++ normalizedRoute` where the
normalized route gains a leading slash exactly when it lacks one; route
`pitchdeck/1` on `http://localhost:3000` yields
`http://localhost:3000/pitchdeck/1`. -/
theorem routeUrl_normalization :
    (∀ url route : List Char, routeUrl url route = url ++ specNormalizedRoute route) ∧
    routeUrl (String.toList "http://localhost:3000") (String.toList "pitchdeck/1") =
      String.toList "http://localhost:3000/pitchdeck/1" := by
  constructor
  · intro url route
    unfold routeUrl
    congr 1
    unfold normalizedRoute
    cases route with
    | nil =>
      rw [if_neg (by decide)]
      unfold specNormalizedRoute
      split
      · rename_i x hx
        cases hx
      · rfl
    | cons c rest =>
      by_cases hc : c = '/'
      · subst hc
        have hp2 : (['/'] : List Char).isPrefixOf ('/' :: rest) = true := by
          rw [List.isPrefixOf_iff_prefix]
          exact ⟨rest, rfl⟩
        rw [if_pos hp2]
        unfold specNormalizedRoute
        split
        · rfl
        · rename_i hni
          exact absurd rfl (hni rest)
      · have hp : ¬ ((['/'] : List Char).isPrefixOf (c :: rest) = true) := by
          intro hpp
          rw [List.isPrefixOf_iff_prefix] at hpp
          obtain ⟨t2, ht2⟩ := hpp
          have hh2 := congrArg List.head? ht2
          simp at hh2
          exact hc hh2.symm
        rw [if_neg hp]
        unfold specNormalizedRoute
        split
        · rename_i x hx
          exact absurd (by simpa using congrArg List.head? hx) hc
        · rfl
  · decide

/-- C8 counterexample: a line carrying both an error keyword and a URL is
rendered as an error-styled line only — no route-tagged line is emitted,
contrary to the claim's "including error/warning lines". -/
theorem route_error_line_cex :
    renderLine false (some (String.toList "/x")) []
        (String.toList "Error at http://localhost:3000") =
      [Rendered.errorStyled [] (String.toList "Error at http://localhost:3000")] := by
  decide

/-- C8 (amended): in non-verbose mode with a non-empty route, every rendered
line that contains URLs and is not classified as error/warning is emitted as
the URL-styled line immediately followed by one route-tagged line per URL
found in the trimmed line, each equal to `url ++ normalizedRoute`;
error-classified lines receive no route lines. -/
theorem route_lines_amended (r tag line : List Char) (hr : r ≠ [])
    (hnb : trim line ≠ []) (hurl : extractUrls (trim line) ≠ [])
    (herr : isErrorLine (trim line) = false) :
    renderLine false (some r) tag line =
      Rendered.urlStyled tag line ::
        (extractUrls (trim line)).map
          (fun url => Rendered.routeTagged tag (url ++ normalizedRoute r)) := by
  have hshow : shouldShowLine (trim line) = true := by
    unfold shouldShowLine
    rw [if_pos (List.length_pos.mpr hurl)]
  simp only [renderLine]
  rw [if_neg (by simpa [List.isEmpty_iff] using hnb)]
  rw [if_neg (by simp)]
  rw [if_pos hshow]
  rw [if_neg (by simp [herr])]
  rw [if_pos (List.length_pos.mpr hurl)]
  rw [if_neg (by simpa [List.isEmpty_iff] using hr)]

/-- C8 witness: a clean URL line with route `/x` emits the URL line then its
route lines. -/
theorem route_lines_amended_witness :
    renderLine false (some (String.toList "/x")) []
        (String.toList "Local: http://localhost:3000") =
      Rendered.urlStyled [] (String.toList "Local: http://localhost:3000") ::
        (extractUrls (trim (String.toList "Local: http://localhost:3000"))).map
          (fun url => Rendered.routeTagged []
            (url ++ normalizedRoute (String.toList "/x"))) :=
  route_lines_amended (String.toList "/x") [] (String.toList "Local: http://localhost:3000")
    (by decide) (by decide) (by decide) (by decide)

/-- C9: for every non-blank line of a chunk, verbose mode renders it with the
worktree tag, and non-verbose mode renders it exactly when `isImportantLine`
holds of the line (URL present, or error/warning, or a ready/listening
keyword in the lowercased line). -/
theorem render_filter_spec (route : Option (List Char)) (tag chunk line : List Char)
    (hmem : line ∈ splitLines chunk) (hnb : trim line ≠ []) :
    renderLine true route tag line = [Rendered.plain tag line] ∧
    (renderLine false route tag line ≠ [] ↔ isImportantLine line = true) := by
  constructor
  · simp only [renderLine]
    rw [if_neg (by simpa [List.isEmpty_iff] using hnb), if_pos trivial]
  · simp only [renderLine]
    rw [if_neg (by simpa [List.isEmpty_iff] using hnb)]
    rw [if_neg (by simp)]
    rw [shouldShowLine_eq, isImportantLine_trim]
    by_cases hi : isImportantLine line = true
    · rw [if_pos hi]
      constructor
      · intro _; exact hi
      · intro _
        by_cases he : isErrorLine (trim line) = true
        · rw [if_pos he]; simp
        · rw [if_neg he]
          by_cases hu : 0 < (extractUrls (trim line)).length
          · rw [if_pos hu]; simp
          · rw [if_neg hu]; simp
    · rw [if_neg hi]
      simp [hi]

/-- C9 witness: the line `ready to go` of a two-line chunk is non-blank and
renders in both modes, matching `isImportantLine`. -/
theorem render_filter_spec_witness :
    renderLine true none [] (String.toList "ready to go") =
      [Rendered.plain [] (String.toList "ready to go")] ∧
    (renderLine false none [] (String.toList "ready to go") ≠ [] ↔
      isImportantLine (String.toList "ready to go") = true) :=
  render_filter_spec none [] (String.toList "hello\nready to go")
    (String.toList "ready to go") (by decide) (by decide)

/-- C10: each worktree's summary block lists the first-seen deduplication of
its accumulated URLs: duplicate-free, a subsequence of the accumulator, and
containing exactly the accumulated URLs, so a URL collected from several
chunks is printed once. -/
theorem summary_urls_firstseen (r : WorktreeRun) :
    summaryWorktreeUrls (runInfo r) = specDedupFirst (runInfo r).urls ∧
    (summaryWorktreeUrls (runInfo r)).Nodup ∧
    List.Sublist (summaryWorktreeUrls (runInfo r)) (runInfo r).urls ∧
    (∀ u, u ∈ summaryWorktreeUrls (runInfo r) ↔ u ∈ (runInfo r).urls) :=
  ⟨dedupKeepFirst_eq_spec _, nodup_dedupKeepFirst _, dedupKeepFirst_sublist _,
    fun _ => mem_dedupKeepFirst⟩

end Otree
